import Mathlib

/-!
Verification of the core decoding pipeline of the astrolabe project
(OpenSpace/Montreal engine data recovery): the LZO1X bitstream
decompressor (`astrolabe/openspace/lzo.py`), the SNA container parser
(`astrolabe/openspace/sna.py`), the relocation-table parser and the
XOR-masked reader (`astrolabe/openspace/relocation.py`,
`astrolabe/openspace/encryption.py`), and the pointer-resolving data
reader (`astrolabe/openspace/datareader.py`).

Bytes are modelled as `Nat` values (each < 256 in any real stream) and
byte buffers as `List Nat`.  Python streams (`BytesIO`) are modelled as
the list of bytes not yet consumed.  Exceptions are modelled with
`Except`.
-/

namespace Astrolabe

/-- Decidable equality for `Except`, so that concrete runs of the
embedded functions can be checked by `decide`. -/
instance {ε α : Type} [DecidableEq ε] [DecidableEq α] : DecidableEq (Except ε α) := fun x y =>
  match x, y with
  | .ok a, .ok b =>
    if h : a = b then .isTrue (by rw [h]) else .isFalse (by intro he; cases he; exact h rfl)
  | .error a, .error b =>
    if h : a = b then .isTrue (by rw [h]) else .isFalse (by intro he; cases he; exact h rfl)
  | .ok _, .error _ => .isFalse (by intro he; cases he)
  | .error _, .ok _ => .isFalse (by intro he; cases he)

/-- Little-endian unsigned interpretation of a byte list, mirroring
Python `int.from_bytes(bs, "little")`. -/
def leNat : List Nat → Nat
  | [] => 0
  | b :: rest => b + 256 * leNat rest

/-- Little-endian signed (two's complement over the slice's actual
length) interpretation, mirroring Python
`int.from_bytes(bs, "little", signed=True)`; an empty slice yields 0. -/
def leInt (bs : List Nat) : Int :=
  if bs.length = 0 then 0
  else if leNat bs < 2 ^ (8 * bs.length - 1) then (leNat bs : Int)
  else (leNat bs : Int) - 2 ^ (8 * bs.length)

/-- Python slice `data[pos : pos + count]`: clamped at the end of the
list, never an error. -/
def slice (data : List Nat) (pos count : Nat) : List Nat :=
  (data.drop pos).take count

/-! ## LZO1X decompressor (`astrolabe/openspace/lzo.py`)

The Python code raises a single exception class `LZOError` with two
distinct messages; we model them as two constructors.  The spec's error
taxonomy calls both `CorruptStream`. -/

inductive LzoErr where
  /-- `LZOError("Unexpected end of stream")`. -/
  | endOfStream
  /-- `LZOError("Invalid first instruction")`. -/
  | invalidFirstInstruction
  deriving DecidableEq, Repr

/-- Python `LzoDecompressor.MAX_WINDOW_SIZE = (1 << 14) + ((255 & 8) << 11) + (255 << 6) + (255 >> 2)`. -/
def ringSize : Nat := (1 <<< 14) + ((255 &&& 8) <<< 11) + (255 <<< 6) + (255 >>> 2)

/-- The `RingBuffer` class: a zero-initialised circular byte buffer of
size `ringSize` with a write position.  We record only the cells that
have been written (most recent first); unwritten cells read as 0,
matching the zero-initialised `bytearray`. -/
structure RingBuffer where
  entries : List (Nat × Nat)
  pos : Nat
  deriving DecidableEq, Repr

/-- Fresh ring buffer (`bytearray(size)` of zeros, position 0). -/
def RingBuffer.init : RingBuffer := ⟨[], 0⟩

/-- Read the cell at index `i` (0 if never written). -/
def RingBuffer.get (r : RingBuffer) (i : Nat) : Nat :=
  (r.entries.lookup i).getD 0

/-- Write one byte at the current position and advance it modulo the
buffer size. -/
def RingBuffer.put (r : RingBuffer) (b : Nat) : RingBuffer :=
  ⟨(r.pos, b) :: r.entries, (r.pos + 1) % ringSize⟩

/-- Method `RingBuffer.write`: append a run of bytes. -/
def RingBuffer.write (r : RingBuffer) (data : List Nat) : RingBuffer :=
  data.foldl RingBuffer.put r

/-- Body of `RingBuffer.copy`: read `n` bytes starting at `readPos`,
writing each byte back at the write position as it is read, so that
overlapping copies (distance < length) see freshly copied bytes. -/
def RingBuffer.copyGo (r : RingBuffer) (readPos : Nat) : Nat → List Nat × RingBuffer
  | 0 => ([], r)
  | n + 1 =>
    let b := r.get readPos
    let r' := r.put b
    let (bs, r'') := RingBuffer.copyGo r' ((readPos + 1) % ringSize) n
    (b :: bs, r'')

/-- Method `RingBuffer.copy`: copy `count` bytes from `distance` back.  The
Python start index `(self._position - distance) % self._size` uses
Python's nonnegative remainder, modelled with `Int.emod`. -/
def RingBuffer.copy (r : RingBuffer) (distance count : Nat) : List Nat × RingBuffer :=
  RingBuffer.copyGo r (((r.pos : Int) - distance).emod ringSize).toNat count

/-- Decompressor state: the unread source bytes, the ring buffer, the
trailing-literal state (`LzoState`: 0 = ZERO_COPY, 1-3 = SMALL_COPY_n,
4 = LARGE_COPY), the current instruction byte, and the pending decoded
buffer (`_decoded_buffer`; `[]` plays Python's `None` - the code never
stores an empty buffer). -/
structure LzoSt where
  src : List Nat
  ring : RingBuffer
  state : Nat
  instruction : Nat
  buffer : List Nat
  deriving DecidableEq, Repr

/-- Method `_read_byte`: one byte from the source, error at end of stream. -/
def readByteSrc : List Nat → Except LzoErr (Nat × List Nat)
  | [] => .error .endOfStream
  | b :: rest => .ok (b, rest)

/-- Method `_read_bytes`: exactly `n` bytes from the source, error if fewer
remain. -/
def readBytesSrc (n : Nat) (src : List Nat) : Except LzoErr (List Nat × List Nat) :=
  if src.length < n then .error .endOfStream
  else .ok (src.take n, src.drop n)

/-- Method `_read_length`: variable-length extension - each zero byte adds 255,
the first nonzero byte terminates and is added. -/
def readLength : List Nat → Nat → Except LzoErr (Nat × List Nat)
  | [], _ => .error .endOfStream
  | b :: rest, acc => if b ≠ 0 then .ok (acc + b, rest) else readLength rest (acc + 255)

/-- Write `data` into `out` starting at index `o` (Python
`dest[o + i] = data[i]`); in all reachable states the writes are in
range. -/
def writeAt : List Nat → Nat → List Nat → List Nat
  | out, _, [] => out
  | out, o, b :: bs => writeAt (out.set o b) (o + 1) bs

/-- Method `_copy_from_source` targeting a fresh buffer: read `n` source bytes,
returning them, and record them in the ring buffer. -/
def readIntoFresh (st : LzoSt) (n : Nat) : Except LzoErr (List Nat × LzoSt) := do
  let (data, src') ← readBytesSrc n st.src
  .ok (data, { st with src := src', ring := st.ring.write data })

/-- Method `_copy_from_source` targeting the output buffer at offset `o`. -/
def copyFromSource (st : LzoSt) (out : List Nat) (o n : Nat) :
    Except LzoErr (List Nat × LzoSt) := do
  let (data, st') ← readIntoFresh st n
  .ok (writeAt out o data, st')

/-- Method `_decode_first_byte`: values 16-17 are illegal; 18+ encode an
initial literal run of `value - 17` bytes (state then 1-4 by run
length, capped at LARGE_COPY) followed by reading the next instruction;
0-15 fall through with the byte kept as the pending instruction and
state ZERO_COPY. -/
def decodeFirstByte (data : List Nat) : Except LzoErr LzoSt := do
  let (i, src) ← readByteSrc data
  if 15 < i ∧ i ≤ 17 then
    .error .invalidFirstInstruction
  else if 18 ≤ i then
    let n := i - 17
    let st0 : LzoSt := ⟨src, RingBuffer.init, 0, i, []⟩
    let (lits, st1) ← readIntoFresh st0 n
    let (i2, src2) ← readByteSrc st1.src
    .ok { st1 with src := src2, state := if i ≤ 21 then n else 4, instruction := i2,
                   buffer := lits }
  else
    .ok ⟨src, RingBuffer.init, 0, i, []⟩

/-- Result of `_decode`: the end-of-stream sentinel (`return -1`), or a
normal step with the number of output bytes produced.  (The Python
field `_output_position` is written but never read; it is omitted.) -/
inductive DecodeResult where
  | eos (st : LzoSt)
  | more (read : Nat) (st : LzoSt) (out : List Nat)
  deriving DecidableEq, Repr

/-- Method `_copy_from_ring_buffer`: copy `cpy` bytes from `distance` back plus
`trail` trailing literals into `out` at `offset`, buffering whatever
does not fit in the remaining `count` output bytes.  Note that in the
`count ≤ cpy` overflow branch the Python code does **not** update
`self._state`. -/
def copyFromRing (st : LzoSt) (out : List Nat) (offset count distance cpy trail : Nat) :
    Except LzoErr (Nat × LzoSt × List Nat) :=
  let result := cpy + trail
  if count < result then
    if count ≤ cpy then
      let (bs1, ring1) := st.ring.copy distance count
      let out1 := writeAt out offset bs1
      let (bs2, ring2) := ring1.copy distance (cpy - count)
      let st1 := { st with ring := ring2 }
      if 0 < trail then do
        let (tl, st2) ← readIntoFresh st1 trail
        .ok (count, { st2 with buffer := bs2 ++ tl }, out1)
      else
        .ok (count, { st1 with buffer := bs2 }, out1)
    else do
      let (bs1, ring1) := st.ring.copy distance cpy
      let out1 := writeAt out offset bs1
      let remaining := count - cpy
      let st1 := { st with ring := ring1 }
      let (d1, st2) ← readIntoFresh st1 remaining
      let out2 := writeAt out1 (offset + cpy) d1
      let (d2, st3) ← readIntoFresh st2 (trail - remaining)
      .ok (count, { st3 with buffer := d2, state := trail }, out2)
  else do
    let (bs1, ring1) := st.ring.copy distance cpy
    let out1 := writeAt out offset bs1
    let st1 := { st with ring := ring1 }
    if 0 < trail then do
      let (tl, st2) ← readIntoFresh st1 trail
      .ok (result, { st2 with state := trail }, writeAt out1 (offset + cpy) tl)
    else
      .ok (result, { st1 with state := trail }, out1)

/-- Shared tail of `_decode`: read the next instruction byte. -/
def decodeTail (read : Nat) (st : LzoSt) (out : List Nat) : Except LzoErr DecodeResult := do
  let (i, src') ← readByteSrc st.src
  .ok (.more read { st with src := src', instruction := i } out)

/-- Method `_decode`: decode one instruction into `out` at `offset`, with
`count` output bytes still wanted. -/
def decode (st : LzoSt) (out : List Nat) (offset count : Nat) :
    Except LzoErr DecodeResult := do
  let i := st.instruction
  if i ≤ 15 then
    if st.state = 0 then
      -- long literal run
      let (ext, src1) ←
        if i ≠ 0 then pure (i, st.src)
        else do
          let (l, s) ← readLength st.src 0
          pure (15 + l, s)
      let length := 3 + ext
      let st1 := { st with src := src1 }
      if length > count then do
        let (out1, st2) ← copyFromSource st1 out offset count
        let (buf, st3) ← readIntoFresh st2 (length - count)
        decodeTail count { st3 with buffer := buf, state := 4 } out1
      else do
        let (out1, st2) ← copyFromSource st1 out offset length
        decodeTail length { st2 with state := 4 } out1
    else if st.state ≤ 3 then do
      -- `_small_copy`: 2 bytes from ≤ 1 kB distance
      let (h, src1) ← readByteSrc st.src
      let distance := (h <<< 2) + ((i &&& 0xc) >>> 2) + 1
      let (read, st', out') ← copyFromRing { st with src := src1 } out offset count distance 2 (i &&& 0x3)
      decodeTail read st' out'
    else do
      -- `_large_copy`: 3 bytes from 2..3 kB distance
      let (h, src1) ← readByteSrc st.src
      let distance := (h <<< 2) + ((i &&& 0xc) >>> 2) + 2049
      let (read, st', out') ← copyFromRing { st with src := src1 } out offset count distance 3 (i &&& 0x3)
      decodeTail read st' out'
  else if i < 32 then do
    -- long-distance match, 16..48 kB; distance 16384 is end of stream
    let (ext, src1) ←
      if i &&& 0x7 ≠ 0 then pure (i &&& 0x7, st.src)
      else do
        let (l, s) ← readLength st.src 0
        pure (7 + l, s)
    let length := ext + 2
    let (s, src2) ← readByteSrc src1
    let (d0, src3) ← readByteSrc src2
    let d := ((d0 <<< 8) ||| s) >>> 2
    let distance := (16384 + ((i &&& 0x8) <<< 11)) ||| d
    if distance = 16384 then
      .ok (.eos { st with src := src3 })
    else do
      let (read, st', out') ← copyFromRing { st with src := src3 } out offset count distance length (s &&& 0x3)
      decodeTail read st' out'
  else if i < 64 then do
    -- medium-distance match, ≤ 16 kB
    let (ext, src1) ←
      if i &&& 0x1f ≠ 0 then pure (i &&& 0x1f, st.src)
      else do
        let (l, s) ← readLength st.src 0
        pure (31 + l, s)
    let length := ext + 2
    let (s, src2) ← readByteSrc src1
    let (d0, src3) ← readByteSrc src2
    let d := ((d0 <<< 8) ||| s) >>> 2
    let distance := d + 1
    let (read, st', out') ← copyFromRing { st with src := src3 } out offset count distance length (s &&& 0x3)
    decodeTail read st' out'
  else if i < 128 then do
    -- short match, 3-4 bytes, ≤ 2 kB
    let length := 3 + ((i >>> 5) &&& 0x1)
    let (h, src1) ← readByteSrc st.src
    let distance := (h <<< 3) + ((i >>> 2) &&& 0x7) + 1
    let (read, st', out') ← copyFromRing { st with src := src1 } out offset count distance length (i &&& 0x3)
    decodeTail read st' out'
  else do
    -- short match, 5-8 bytes, ≤ 2 kB
    let length := 5 + ((i >>> 5) &&& 0x3)
    let (h, src1) ← readByteSrc st.src
    let distance := (h <<< 3) + ((i &&& 0x1c) >>> 2) + 1
    let (read, st', out') ← copyFromRing { st with src := src1 } out offset count distance length (i &&& 0x3)
    decodeTail read st' out'

/-- The `decompress` loop: drain the pending buffer first, otherwise
decode the next instruction; stop at the end-of-stream sentinel or once
`size` bytes are produced.  `fuel` only bounds the recursion: every
iteration produces at least one output byte, so `size + 1` is always
enough; the fuel-exhausted arm mirrors the loop-guard-false exit and is
unreachable from `lzoDecompress`. -/
def decompressLoop (size : Nat) : Nat → LzoSt → List Nat → Nat → Except LzoErr (List Nat × Nat)
  | 0, _, out, pos => .ok (out, pos)
  | fuel + 1, st, out, pos =>
    if pos < size then
      if st.buffer ≠ [] then
        let copyLen := min st.buffer.length (size - pos)
        let out1 := writeAt out pos (st.buffer.take copyLen)
        let buf' := if copyLen < st.buffer.length then st.buffer.drop copyLen else []
        decompressLoop size fuel { st with buffer := buf' } out1 (pos + copyLen)
      else
        match decode st out pos (size - pos) with
        | .error e => .error e
        | .ok (.eos _) => .ok (out, pos)
        | .ok (.more read st' out') => decompressLoop size fuel st' out' (pos + read)
    else .ok (out, pos)

/-- Method `LzoDecompressor.decompress`: run the loop on a zero-filled output
buffer of the requested size; also returns the number of bytes actually
produced (the loop variable `pos`). -/
def lzoDecompress (st : LzoSt) (size : Nat) : Except LzoErr (List Nat × Nat) :=
  decompressLoop size (size + 1) st (List.replicate size 0) 0

/-- Function `decompress_lzo`: empty input or a requested size of 0 yield an
empty buffer without running the decompressor; otherwise decode the
first byte and run the loop. -/
def decompress_lzo (data : List Nat) (size : Nat) : Except LzoErr (List Nat) :=
  if data = [] then .ok []
  else if size = 0 then .ok []
  else do
    let st ← decodeFirstByte data
    let (out, _) ← lzoDecompress st size
    .ok out

/-! ## SNA container parser (`astrolabe/openspace/sna.py`)

`SNAReader` keeps the raw bytes and a cursor `self.pos`.  Its field
readers have Python semantics: `_read_u8` indexes (`IndexError` past
the end), while `_read_u16/_read_i32/_read_u32/_read_bytes` use slices,
which clamp silently at the end of the buffer. -/

inductive SnaErr where
  /-- Python `IndexError` from `_read_u8` past the end of the buffer. -/
  | indexError
  /-- An `LZOError` propagated out of block decompression. -/
  | lzo (e : LzoErr)
  deriving DecidableEq, Repr

/-- Dataclass `SNAMemoryBlock`. -/
structure SNAMemoryBlock where
  module : Nat
  block_id : Nat
  base_in_memory : Int
  size : Nat
  data : List Nat
  data_position : Nat
  deriving DecidableEq, Repr

/-- Property `SNAMemoryBlock.relocation_key = (module << 8) | block_id`. -/
def SNAMemoryBlock.relocation_key (b : SNAMemoryBlock) : Nat :=
  (b.module <<< 8) ||| b.block_id

/-- Property `SNAMemoryBlock.is_terminator`. -/
def SNAMemoryBlock.is_terminator (b : SNAMemoryBlock) : Bool :=
  b.base_in_memory = -1

/-- Method `SNAReader._read_u8` at an explicit cursor: an index, not a slice,
so it fails (Python `IndexError`) at or past the end. -/
def readU8 (data : List Nat) (pos : Nat) : Except SnaErr Nat :=
  if pos < data.length then .ok (data.getD pos 0) else .error .indexError

/-- Method `SNAReader._read_u32` value at an explicit cursor: decoded from the
(possibly clamped, possibly empty) 4-byte slice; never an error. -/
def readU32v (data : List Nat) (pos : Nat) : Nat :=
  leNat (slice data pos 4)

/-- Method `SNAReader._read_i32` value at an explicit cursor: signed decode of
the (possibly clamped, possibly empty) 4-byte slice; never an error. -/
def readI32v (data : List Nat) (pos : Nat) : Int :=
  leInt (slice data pos 4)

/-- The `SNAReader.read` loop, with the cursor and
`current_data_position` threaded explicitly; returns the block list and
the final cursor.  Each record reads `module: u8`, `blockId: u8`,
`baseInMemory: i32`; `-1` appends the empty terminator block and stops;
otherwise three unused u32 fields, `blockSize: u32`, and - when
`blockSize > 0` - the five u32 payload-header fields and the
`compressedSize`-byte chunk, decompressed when `isCompressed` is
nonzero and truncated to `blockSize` raw bytes otherwise.  `fuel` only
bounds the recursion: the cursor grows by at least 6 per iteration
while the guard requires `pos < data.length`, so `data.length` is
always enough fuel. -/
def snaLoop (data : List Nat) : Nat → Nat → Nat → Except SnaErr (List SNAMemoryBlock × Nat)
  | 0, pos, _ => .ok ([], pos)
  | fuel + 1, pos, cdp =>
    if pos < data.length then
      match readU8 data pos with
      | .error e => .error e
      | .ok m =>
        match readU8 data (pos + 1) with
        | .error e => .error e
        | .ok bId =>
          let base := readI32v data (pos + 2)
          if base = -1 then
            .ok ([⟨m, bId, -1, 0, [], cdp⟩], pos + 6)
          else
            -- unk2 / unk3 / max_pos_minus_9 are read at pos+6..pos+17 and discarded
            let blockSize := readU32v data (pos + 18)
            if 0 < blockSize then
              let isCompressed := readU32v data (pos + 22)
              let compressedSize := readU32v data (pos + 26)
              -- checksums at pos+30 and pos+38 are read and discarded
              let decompressedSize := readU32v data (pos + 34)
              let chunk := slice data (pos + 42) compressedSize
              match (if isCompressed ≠ 0 then decompress_lzo chunk decompressedSize
                     else .ok (chunk.take blockSize)) with
              | .error e => .error (.lzo e)
              | .ok blockData =>
                match snaLoop data fuel (pos + 42 + compressedSize) (cdp + blockData.length) with
                | .error e => .error e
                | .ok (rest, p) => .ok (⟨m, bId, base, blockSize, blockData, cdp⟩ :: rest, p)
            else
              match snaLoop data fuel (pos + 22) cdp with
              | .error e => .error e
              | .ok (rest, p) => .ok (⟨m, bId, base, blockSize, [], cdp⟩ :: rest, p)
    else .ok ([], pos)

/-- Method `SNAReader.read` with the final cursor exposed. -/
def snaReadAux (data : List Nat) : Except SnaErr (List SNAMemoryBlock × Nat) :=
  snaLoop data data.length 0 0

/-- Method `SNAReader.read`: the parsed block list. -/
def snaRead (data : List Nat) : Except SnaErr (List SNAMemoryBlock) :=
  (snaReadAux data).map Prod.fst

/-! ## XOR-masked reader (`astrolabe/openspace/encryption.py`)

`EncryptedReader` wraps a stream (modelled as the unread byte list)
with an optional self-seeding XOR mask.  `read` returns whatever bytes
remain (clamped); `read_byte` returns 0 at end of stream; the
fixed-width readers `struct.unpack` and therefore fail when fewer bytes
remain than the field requires. -/

inductive RtbErr where
  /-- Python `struct.error` when `unpack` gets too few bytes. -/
  | structError
  /-- Python `ValueError` when the mask seed is shorter than 4 bytes. -/
  | valueError
  /-- An `LZOError` from inner pointer-data decompression. -/
  | lzo (e : LzoErr)
  deriving DecidableEq, Repr

/-- Class `EncryptedReader` state: unread stream bytes, whether decryption is
enabled, whether the mask was initialised, and the 32-bit mask value. -/
structure EncReader where
  stream : List Nat
  encrypted : Bool
  maskInit : Bool
  mask : Nat
  deriving DecidableEq, Repr

/-- One step of `XORMask`: rotate the 32-bit mask left by one. -/
def maskStep (m : Nat) : Nat :=
  ((m <<< 1) ||| ((m >>> 31) &&& 1)) &&& 0xFFFFFFFF

/-- Method `XORMask.decode_bytes` body: XOR each byte with the low mask byte,
advancing the mask once per byte; returns the decoded bytes and the
final mask. -/
def decodeBytesGo (m : Nat) : List Nat → List Nat × Nat
  | [] => ([], m)
  | b :: bs =>
    let d := b ^^^ (m &&& 0xFF)
    let (rest, m') := decodeBytesGo (maskStep m) bs
    (d :: rest, m')

/-- Constructor `EncryptedReader.__init__`: when `encrypted`, consume 4 seed bytes
to initialise the mask (`ValueError` if fewer are available). -/
def mkEncReader (data : List Nat) (encrypted : Bool) : Except RtbErr EncReader :=
  if encrypted then
    if data.length < 4 then .error .valueError
    else .ok ⟨data.drop 4, true, true, leNat (data.take 4)⟩
  else .ok ⟨data, false, false, 0⟩

/-- Method `EncryptedReader.read`: up to `n` bytes from the stream (clamped at
the end), XOR-decoded when encryption is enabled and the mask was
initialised. -/
def EncReader.read (r : EncReader) (n : Nat) : List Nat × EncReader :=
  let data := r.stream.take n
  let r1 := { r with stream := r.stream.drop n }
  if r.encrypted then
    if r.maskInit then
      let (d, m') := decodeBytesGo r.mask data
      (d, { r1 with mask := m' })
    else (data, r1)
  else (data, r1)

/-- Method `EncryptedReader.read_byte`: `data[0] if data else 0` - end of
stream is reported as the byte value 0, not as an error. -/
def EncReader.read_byte (r : EncReader) : Nat × EncReader :=
  let (d, r') := r.read 1
  (if d = [] then 0 else d.getD 0 0, r')

/-- Method `EncryptedReader.read_uint32`: `struct.unpack("<I", ...)` fails when
fewer than 4 bytes remain. -/
def EncReader.read_uint32 (r : EncReader) : Except RtbErr (Nat × EncReader) :=
  let (d, r') := r.read 4
  if d.length < 4 then .error .structError else .ok (leNat d, r')

/-! ## Relocation table parser (`astrolabe/openspace/relocation.py`) -/

/-- Dataclass `RelocationPointerInfo` (the optional `byte6`/`byte7` fields are
never read in the Montreal path and keep their default 0; they are
omitted). -/
structure RelocationPointerInfo where
  offset_in_memory : Nat
  module : Nat
  block_id : Nat
  deriving DecidableEq, Repr

/-- Dataclass `RelocationPointerList`. -/
structure RelocationPointerList where
  module : Nat
  block_id : Nat
  count : Nat
  pointers : List RelocationPointerInfo
  deriving DecidableEq, Repr

/-- Dataclass `RelocationTable`. -/
structure RelocationTable where
  pointer_blocks : List RelocationPointerList
  deriving DecidableEq, Repr

/-- Method `RelocationTable._read_pointer_block`: read `n` six-byte entries
(`u32 memoryOffset; u8 targetModule; u8 targetBlockId`). -/
def readPointerEntries : Nat → EncReader → Except RtbErr (List RelocationPointerInfo × EncReader)
  | 0, r => .ok ([], r)
  | n + 1, r => do
    let (off, r1) ← r.read_uint32
    let (m, r2) := r1.read_byte
    let (bId, r3) := r2.read_byte
    let (rest, r4) ← readPointerEntries n r3
    .ok (⟨off, m, bId⟩ :: rest, r4)

/-- One iteration of the `RelocationTable._read` list loop: the list
header `u8 sourceModule; u8 sourceBlockId; u32 pointerCount`, then -
only when `pointerCount > 0` - either a payload header plus the
(possibly compressed) pointer data read through a fresh unencrypted
reader, or the raw entries in place. -/
def rtbReadList (compressed : Bool) (r : EncReader) :
    Except RtbErr (RelocationPointerList × EncReader) := do
  let (m, r1) := r.read_byte
  let (bId, r2) := r1.read_byte
  let (cnt, r3) ← r2.read_uint32
  if 0 < cnt then
    if compressed then do
      let (isC, r4) ← r3.read_uint32
      let (csize, r5) ← r4.read_uint32
      let (_cchk, r6) ← r5.read_uint32
      let (dsize, r7) ← r6.read_uint32
      let (_dchk, r8) ← r7.read_uint32
      let (cdata, r9) := r8.read csize
      let inner ←
        if isC ≠ 0 then (decompress_lzo cdata dsize).mapError RtbErr.lzo
        else .ok cdata
      let (ptrs, _) ← readPointerEntries cnt ⟨inner, false, false, 0⟩
      .ok (⟨m, bId, cnt, ptrs⟩, r9)
    else do
      let (ptrs, r4) ← readPointerEntries cnt r3
      .ok (⟨m, bId, cnt, ptrs⟩, r4)
  else
    .ok (⟨m, bId, cnt, []⟩, r3)

/-- The `RelocationTable._read` loop over `listCount` lists. -/
def rtbReadLists (compressed : Bool) : Nat → EncReader →
    Except RtbErr (List RelocationPointerList × EncReader)
  | 0, r => .ok ([], r)
  | n + 1, r => do
    let (l, r1) ← rtbReadList compressed r
    let (ls, r2) ← rtbReadLists compressed n r1
    .ok (l :: ls, r2)

/-- Methods `RelocationTable.from_bytes` / `_read`: one `u8` list count, then
that many lists. -/
def rtbRead (data : List Nat) (encrypted compressed : Bool) : Except RtbErr RelocationTable := do
  let r ← mkEncReader data encrypted
  let (count, r1) := r.read_byte
  let (lists, _) ← rtbReadLists compressed count r1
  .ok ⟨lists⟩

/-! ## Pointer-resolving data reader (`astrolabe/openspace/datareader.py`) -/

/-- The datareader `Pointer` dataclass: a raw 32-bit offset and the
block attached when the pointer was read. -/
structure PointerD where
  offset : Nat
  block : Option SNAMemoryBlock
  deriving DecidableEq, Repr

/-- Property `Pointer.is_null`. -/
def PointerD.is_null (p : PointerD) : Bool :=
  p.offset = 0 ∧ p.block = none

/-- Python `EOFError` raised by `SNADataReader._read_bytes`; the spec's
taxonomy calls it `Truncated`. -/
inductive DataErr where
  | truncated
  deriving DecidableEq, Repr

/-- Class `SNADataReader` state: the container's blocks, the current block,
its payload (`self._data`), the cursor and the current base address. -/
structure SNADataReader where
  blocks : List SNAMemoryBlock
  currentBlock : Option SNAMemoryBlock
  dataBuf : List Nat
  position : Nat
  baseAddress : Int
  deriving DecidableEq, Repr

/-- The `_blocks_by_key` lookup: the constructor inserts every
non-terminator block into a dict keyed by `relocation_key`, so the last
matching non-terminator block wins. -/
def blocksByKeyGet (blocks : List SNAMemoryBlock) (key : Nat) : Option SNAMemoryBlock :=
  (blocks.filter fun b => !b.is_terminator && b.relocation_key = key).getLast?

/-- Method `SNADataReader.set_block`. -/
def setBlock (r : SNADataReader) (m bId : Nat) : Bool × SNADataReader :=
  match blocksByKeyGet r.blocks ((m <<< 8) ||| bId) with
  | none => (false, r)
  | some b =>
    (true, { r with currentBlock := some b, dataBuf := b.data, position := 0,
                    baseAddress := b.base_in_memory })

/-- Method `SNADataReader.seek`. -/
def seek (r : SNADataReader) (offset : Nat) : SNADataReader :=
  { r with position := offset }

/-- Method `SNADataReader._read_bytes`: bounds-checked - fails rather than ever
reading outside the payload. -/
def readBytesDR (r : SNADataReader) (count : Nat) : Except DataErr (List Nat × SNADataReader) :=
  if r.dataBuf.length < r.position + count then .error .truncated
  else .ok (slice r.dataBuf r.position count, { r with position := r.position + count })

/-- Method `SNADataReader.read_u8`. -/
def readU8DR (r : SNADataReader) : Except DataErr (Nat × SNADataReader) := do
  let (bs, r') ← readBytesDR r 1
  .ok (bs.getD 0 0, r')

/-- Method `SNADataReader.read_i8`. -/
def readI8DR (r : SNADataReader) : Except DataErr (Int × SNADataReader) := do
  let (bs, r') ← readBytesDR r 1
  .ok (leInt bs, r')

/-- Method `SNADataReader.read_u16`. -/
def readU16DR (r : SNADataReader) : Except DataErr (Nat × SNADataReader) := do
  let (bs, r') ← readBytesDR r 2
  .ok (leNat bs, r')

/-- Method `SNADataReader.read_i16`. -/
def readI16DR (r : SNADataReader) : Except DataErr (Int × SNADataReader) := do
  let (bs, r') ← readBytesDR r 2
  .ok (leInt bs, r')

/-- Method `SNADataReader.read_u32`. -/
def readU32DR (r : SNADataReader) : Except DataErr (Nat × SNADataReader) := do
  let (bs, r') ← readBytesDR r 4
  .ok (leNat bs, r')

/-- Method `SNADataReader.read_i32`. -/
def readI32DR (r : SNADataReader) : Except DataErr (Int × SNADataReader) := do
  let (bs, r') ← readBytesDR r 4
  .ok (leInt bs, r')

/-- Method `SNADataReader.read_float`: consumes 4 bytes; the IEEE-754 value is
returned as its raw bit pattern (float arithmetic is out of scope; the
byte access and bounds behaviour are what is modelled). -/
def readF32DR (r : SNADataReader) : Except DataErr (Nat × SNADataReader) := do
  let (bs, r') ← readBytesDR r 4
  .ok (leNat bs, r')

/-- Method `SNADataReader.read_string`: a fixed-length byte string with
trailing NUL bytes stripped (returned as bytes; latin-1 decoding is a
bijection on byte values). -/
def readStringDR (r : SNADataReader) (length : Nat) :
    Except DataErr (List Nat × SNADataReader) := do
  let (bs, r') ← readBytesDR r length
  .ok ((bs.reverse.dropWhile (· = 0)).reverse, r')

/-- Method `SNADataReader.read_pointer`: reads a raw u32; zero is the null
pointer; otherwise the `Pointer` carries the raw value and the
**current** block - the relocation table is not consulted. -/
def readPointer (r : SNADataReader) : Except DataErr (PointerD × SNADataReader) := do
  let (v, r') ← readU32DR r
  if v = 0 then .ok (⟨0, none⟩, r')
  else .ok (⟨v, r'.currentBlock⟩, r')

/-- Method `SNADataReader.goto_pointer`: for a non-null pointer with a block,
switch to that block and seek to `offset - block.base_in_memory` when
that lands inside the block's payload; `False` otherwise. -/
def gotoPointer (r : SNADataReader) (p : PointerD) : Bool × SNADataReader :=
  if p.is_null then (false, r)
  else
    match p.block with
    | some b =>
      let r1 := { r with currentBlock := some b, dataBuf := b.data,
                         baseAddress := b.base_in_memory }
      let off : Int := (p.offset : Int) - b.base_in_memory
      if 0 ≤ off ∧ off < (r1.dataBuf.length : Int) then
        (true, { r1 with position := off.toNat })
      else (false, r1)
    | none => (false, r)

/-! ## Scenario fixtures -/

/-- Scenario D source block `(0,0)` at base 0x1000, 16-byte payload whose
bytes 4..7 store the little-endian u32 0x2008. -/
def blk00 : SNAMemoryBlock :=
  ⟨0, 0, 0x1000, 16, [0, 0, 0, 0, 0x08, 0x20, 0, 0, 0, 0, 0, 0, 0, 0, 0, 0], 0⟩

/-- Scenario D target block `(0,1)` at base 0x2000, 16-byte payload. -/
def blk01 : SNAMemoryBlock := ⟨0, 1, 0x2000, 16, List.replicate 16 0, 16⟩

/-- Scenario D container terminator. -/
def blkTerm : SNAMemoryBlock := ⟨0, 0, -1, 0, [], 32⟩

/-- A data reader over the Scenario D container. -/
def scenReader : SNADataReader := ⟨[blk00, blk01, blkTerm], none, [], 0, 0⟩

/-- The Scenario D relocation table: one list for source `(0,0)` with the
single entry `{memoryOffset: 0x1004, targetModule: 0, targetBlockId: 1}`. -/
def rtbScenario : RelocationTable := ⟨[⟨0, 0, 1, [⟨0x1004, 0, 1⟩]⟩]⟩

/-- The C3 counterexample container: one record with `blockSize = 4` and
an uncompressed payload header carrying `compressedSize = 8` and
`decompressedSize = 8`, an 8-byte raw chunk `01..08`, then a
terminator record. -/
def c3cex : List Nat :=
  [0, 0, 0, 0, 0, 0,
   0, 0, 0, 0, 0, 0, 0, 0, 0, 0, 0, 0,
   4, 0, 0, 0,
   0, 0, 0, 0,
   8, 0, 0, 0,
   0, 0, 0, 0,
   8, 0, 0, 0,
   0, 0, 0, 0,
   1, 2, 3, 4, 5, 6, 7, 8,
   0, 0, 255, 255, 255, 255]

/-- Reduction of `Except` bind on a success value. -/
@[simp] theorem exceptBind_ok {ε α β : Type} (a : α) (f : α → Except ε β) :
    (Except.ok a >>= f) = f a := rfl

/-- Reduction of `Except` bind on an error value. -/
@[simp] theorem exceptBind_err {ε α β : Type} (e : ε) (f : α → Except ε β) :
    ((Except.error e : Except ε α) >>= f) = .error e := rfl

/-- C1: `decompress_lzo` on `[0x12, 0x41, 0x11, 0x00, 0x00]` with expected
size 1 returns `b"A"`.  The first byte 0x12 = 18 encodes an initial
literal run of one byte: after `decodeFirstByte` the state holds the
pending literal `0x41` with instruction byte 0x11 and source `[0, 0]`
(second conjunct).  Decoding that instruction (0x11 with extra bytes
0x00 0x00) computes distance `(16384 + ((0x11 &&& 8) <<< 11)) ||| 0 =
16384`, the end-of-stream long-match sentinel, so `_decode` returns the
end-of-stream marker without producing output (third conjunct). -/
theorem lzo_scenario_a :
    decompress_lzo [0x12, 0x41, 0x11, 0x00, 0x00] 1 = .ok [0x41] ∧
    decodeFirstByte [0x12, 0x41, 0x11, 0x00, 0x00] =
      .ok ⟨[0x00, 0x00], ⟨[(0, 0x41)], 1⟩, 1, 0x11, [0x41]⟩ ∧
    decode ⟨[0x00, 0x00], ⟨[(0, 0x41)], 1⟩, 1, 0x11, [0x41]⟩ [0x41] 1 0 =
      .ok (.eos ⟨[], ⟨[(0, 0x41)], 1⟩, 1, 0x11, [0x41]⟩) := by
  decide

/-- C2: in Scenario D (container blocks `(0,0)@0x1000` and `(0,1)@0x2000`,
relocation list for `(0,0)` with entry `{0x1004, target (0,1)}`, raw
u32 0x2008 stored at payload offset 4 of `(0,0)`), `read_pointer`
returns a pointer that carries the **source** block `(0,0)` - it takes
no relocation-table input at all - and `goto_pointer` subtracts the
source block's base 0x1000, computes offset 0x1008 ≥ 16 and fails
(returns `False`); the spec-described resolution against the target
block `(0,1)` would give offset `0x2008 - 0x2000 = 8` (last conjunct).
This contradicts `read_pointer`'s own docstring ("resolve it using the
relocation table"); the code comments "For now, return a pointer with
just the raw offset". -/
theorem resolver_scenario_d_bug :
    (setBlock scenReader 0 0).1 = true ∧
    readPointer (seek (setBlock scenReader 0 0).2 4) =
      .ok (⟨0x2008, some blk00⟩, seek (setBlock scenReader 0 0).2 8) ∧
    (gotoPointer (seek (setBlock scenReader 0 0).2 8) ⟨0x2008, some blk00⟩).1 = false ∧
    ((0x2008 : Int) - blk01.base_in_memory = 8) ∧
    rtbScenario.pointer_blocks = [⟨0, 0, 1, [⟨0x1004, 0, 1⟩]⟩] := by
  decide

/-- C3 counterexample: the raw chunk after the header is `[1..8]` and the
record's `decompressedSize` field is 8, but the parsed block's payload
is `[1, 2, 3, 4]` - the first `blockSize` bytes of the chunk, not the
first `decompressedSize` bytes as the claim states. -/
theorem sna_uncompressed_cex :
    snaRead c3cex = .ok [⟨0, 0, 0, 4, [1, 2, 3, 4], 0⟩, ⟨0, 0, -1, 0, [], 4⟩] ∧
    readU32v c3cex 34 = 8 ∧
    slice c3cex 42 (readU32v c3cex 26) = [1, 2, 3, 4, 5, 6, 7, 8] ∧
    [1, 2, 3, 4] ≠ (slice c3cex 42 (readU32v c3cex 26)).take (readU32v c3cex 34) := by
  decide

/-- C4 counterexample: the 3-byte input `[0, 0, 255]` ends inside the
4-byte `baseAddress` field (only one byte remains), yet parsing
**succeeds**: the clamped slice `[255]` decodes (signed) to `-1`, so
the record is taken for a terminator - no `Truncated` (or any other)
error is raised. -/
theorem sna_truncated_cex :
    snaRead [0, 0, 255] = .ok [⟨0, 0, -1, 0, [], 0⟩] ∧
    ([0, 0, 255] : List Nat).length < 2 + 4 := by
  decide

/-- C4 amended: in the container parser only the u8 field reader is
bounds-checked (Python `IndexError` at or past the end); the multi-byte
fixed-width readers decode from the clamped slice and never fail - at
or past the end of input they silently return 0 - so a record
truncated inside a multi-byte field can parse without any error, as
`[0, 0, 255]` does. -/
theorem sna_truncated_fields (data : List Nat) (pos : Nat) :
    (data.length ≤ pos → readU8 data pos = .error .indexError) ∧
    (pos < data.length → readU8 data pos = .ok (data.getD pos 0)) ∧
    (data.length ≤ pos → readU32v data pos = 0 ∧ readI32v data pos = 0) ∧
    snaRead [0, 0, 255] = .ok [⟨0, 0, -1, 0, [], 0⟩] := by
  refine ⟨fun h => ?_, fun h => ?_, fun h => ?_, by decide⟩
  · simp [readU8, Nat.not_lt.mpr h]
  · simp [readU8, h]
  · have hd : data.drop pos = [] := List.drop_eq_nil_of_le h
    constructor
    · simp [readU32v, slice, hd, leNat]
    · simp [readI32v, slice, hd, leInt]

/-- Witness for `sna_truncated_fields` at concrete inputs. -/
theorem sna_truncated_fields_wit :
    readU8 [5] 1 = .error .indexError ∧ readU8 [5] 0 = .ok 5 ∧ readU32v [] 0 = 0 := by
  exact ⟨(sna_truncated_fields [5] 1).1 (by decide),
         (sna_truncated_fields [5] 0).2.1 (by decide),
         ((sna_truncated_fields [] 0).2.2.1 (by decide)).1⟩

/-- C7: a relocation list header whose `pointerCount` is 0 yields an
empty pointer list, and the reader handed to the next header is exactly
the reader as it stood after the `u32 pointerCount` read - no further
bytes are consumed for the list, in either compression mode. -/
theorem rtb_empty_list (compressed : Bool) (r r1 r2 r3 : EncReader) (m bId : Nat)
    (h1 : r.read_byte = (m, r1)) (h2 : r1.read_byte = (bId, r2))
    (h3 : r2.read_uint32 = .ok (0, r3)) :
    rtbReadList compressed r = .ok (⟨m, bId, 0, []⟩, r3) := by
  simp [rtbReadList, h1, h2, h3]

/-- Witness for `rtb_empty_list`: header module 1, block 2, count 0; the
byte 99 after the header is untouched. -/
theorem rtb_empty_list_wit :
    rtbReadList false ⟨[1, 2, 0, 0, 0, 0, 99], false, false, 0⟩ =
      .ok (⟨1, 2, 0, []⟩, ⟨[99], false, false, 0⟩) := by
  exact rtb_empty_list false ⟨[1, 2, 0, 0, 0, 0, 99], false, false, 0⟩
    ⟨[2, 0, 0, 0, 0, 99], false, false, 0⟩ ⟨[0, 0, 0, 0, 99], false, false, 0⟩
    ⟨[99], false, false, 0⟩ 1 2 (by decide) (by decide) (by decide)

/-- C10: `EncryptedReader.read_byte` on an exhausted stream returns the
value 0 (and leaves the reader unchanged) instead of raising; on a
non-empty stream it returns the (mask-decoded, when enabled) first
byte - so a true zero byte also reads as 0, making end-of-stream
indistinguishable from a zero byte at this interface. -/
theorem encreader_eof_byte (r : EncReader) :
    (r.stream = [] → r.read_byte = (0, r)) ∧
    (∀ b rest, r.stream = b :: rest →
      (r.read_byte).1 = if r.encrypted ∧ r.maskInit then b ^^^ (r.mask &&& 0xFF) else b) := by
  constructor
  · intro h
    cases r with
    | mk stream encrypted maskInit mask =>
      subst h
      cases encrypted <;> cases maskInit <;>
        simp [EncReader.read_byte, EncReader.read, decodeBytesGo]
  · intro b rest h
    cases r with
    | mk stream encrypted maskInit mask =>
      subst h
      cases encrypted <;> cases maskInit <;>
        simp [EncReader.read_byte, EncReader.read, decodeBytesGo]

/-- Witness for `encreader_eof_byte`: an exhausted encrypted reader
yields 0, and so does an unencrypted reader whose next byte really is
0. -/
theorem encreader_eof_byte_wit :
    (⟨[], true, true, 0x12345678⟩ : EncReader).read_byte = (0, ⟨[], true, true, 0x12345678⟩) ∧
    ((⟨[0], false, false, 0⟩ : EncReader).read_byte).1 = 0 := by
  constructor
  · exact (encreader_eof_byte ⟨[], true, true, 0x12345678⟩).1 rfl
  · have h := (encreader_eof_byte ⟨[0], false, false, 0⟩).2 0 [] rfl
    simpa using h

/-- C8: `_read_bytes` is bounds-checked: whenever the cursor plus the
requested size exceeds the payload length it fails with the truncation
error, and a successful read returns exactly the `count`-byte slice of
the payload starting at the cursor (never bytes from outside it); each
scalar reader (u8, i8, u16, i16, u32, i32, f32, fixed-length string)
goes through `_read_bytes` and inherits the same bound. -/
theorem datareader_bounds (r : SNADataReader) (count : Nat) :
    (r.dataBuf.length < r.position + count → readBytesDR r count = .error .truncated) ∧
    (∀ bs r', readBytesDR r count = .ok (bs, r') →
      r.position + count ≤ r.dataBuf.length ∧ bs = slice r.dataBuf r.position count ∧
      bs.length = count ∧ r' = { r with position := r.position + count }) ∧
    (r.dataBuf.length < r.position + 1 →
      readU8DR r = .error .truncated ∧ readI8DR r = .error .truncated) ∧
    (r.dataBuf.length < r.position + 2 →
      readU16DR r = .error .truncated ∧ readI16DR r = .error .truncated) ∧
    (r.dataBuf.length < r.position + 4 →
      readU32DR r = .error .truncated ∧ readI32DR r = .error .truncated ∧
      readF32DR r = .error .truncated) ∧
    (r.dataBuf.length < r.position + count → readStringDR r count = .error .truncated) := by
  refine ⟨fun h => ?_, fun bs r' h => ?_, fun h => ?_, fun h => ?_, fun h => ?_, fun h => ?_⟩
  · simp [readBytesDR, h]
  · rw [readBytesDR] at h
    split at h
    · cases h
    · rename_i hle
      injection h with h1
      injection h1 with hbs hr'
      refine ⟨by omega, hbs.symm, ?_, hr'.symm⟩
      subst hbs
      simp [slice, List.length_take, List.length_drop]
      omega
  · exact ⟨by simp [readU8DR, readBytesDR, h], by simp [readI8DR, readBytesDR, h]⟩
  · exact ⟨by simp [readU16DR, readBytesDR, h], by simp [readI16DR, readBytesDR, h]⟩
  · exact ⟨by simp [readU32DR, readBytesDR, h], by simp [readI32DR, readBytesDR, h],
           by simp [readF32DR, readBytesDR, h]⟩
  · simp [readStringDR, readBytesDR, h]

/-- Witness for `datareader_bounds` on a 3-byte payload with the cursor
at 2: a 5-byte read fails, a u16 read fails, and a successful 1-byte
read returns the in-payload slice. -/
theorem datareader_bounds_wit :
    readBytesDR ⟨[], none, [10, 20, 30], 2, 0⟩ 5 = .error .truncated ∧
    readU16DR ⟨[], none, [10, 20, 30], 2, 0⟩ = .error .truncated ∧
    (2 + 1 ≤ 3 ∧ [30] = slice [10, 20, 30] 2 1 ∧ ([30] : List Nat).length = 1 ∧
      (⟨[], none, [10, 20, 30], 3, 0⟩ : SNADataReader) = ⟨[], none, [10, 20, 30], 2 + 1, 0⟩) := by
  refine ⟨(datareader_bounds ⟨[], none, [10, 20, 30], 2, 0⟩ 5).1 (by decide),
          ((datareader_bounds ⟨[], none, [10, 20, 30], 2, 0⟩ 5).2.2.2.1 (by decide)).1,
          (datareader_bounds ⟨[], none, [10, 20, 30], 2, 0⟩ 1).2.1 [30]
            ⟨[], none, [10, 20, 30], 3, 0⟩ (by decide)⟩

/-- C3 amended: a container record at cursor `pos` with non-terminator
base address, `blockSize > 0` and `isCompressed = 0` produces a block
whose payload is the first **blockSize** bytes of the raw
`compressedSize`-byte chunk that follows the header
(`compressed_data[:block_size]`). -/
theorem sna_uncompressed_payload (data : List Nat) (fuel pos cdp : Nat)
    (blocks : List SNAMemoryBlock) (p : Nat)
    (h : snaLoop data (fuel + 1) pos cdp = .ok (blocks, p))
    (hpos : pos < data.length)
    (hbase : readI32v data (pos + 2) ≠ -1)
    (hbs : 0 < readU32v data (pos + 18))
    (hc : readU32v data (pos + 22) = 0) :
    ∃ rest, blocks =
      ⟨data.getD pos 0, data.getD (pos + 1) 0, readI32v data (pos + 2),
        readU32v data (pos + 18),
        (slice data (pos + 42) (readU32v data (pos + 26))).take (readU32v data (pos + 18)),
        cdp⟩ :: rest := by
  rw [snaLoop, if_pos hpos] at h
  by_cases h2 : pos + 1 < data.length
  · simp only [readU8, if_pos hpos, if_pos h2, if_neg hbase, if_pos hbs, hc, ne_eq,
      not_true_eq_false, if_false, reduceIte] at h
    rcases ht : snaLoop data fuel (pos + 42 + readU32v data (pos + 26))
        (cdp + ((slice data (pos + 42) (readU32v data (pos + 26))).take
          (readU32v data (pos + 18))).length) with e | pr
    · rw [ht] at h; cases h
    · rw [ht] at h
      injection h with h1
      obtain ⟨rest, p'⟩ := pr
      injection h1 with hblocks
      exact ⟨rest, hblocks.symm⟩
  · simp only [readU8, if_pos hpos, if_neg h2] at h
    exact Except.noConfusion h

/-- Witness for `sna_uncompressed_payload` on the `c3cex` container. -/
theorem sna_uncompressed_payload_wit :
    ∃ rest, [(⟨0, 0, 0, 4, [1, 2, 3, 4], 0⟩ : SNAMemoryBlock), ⟨0, 0, -1, 0, [], 4⟩] =
      (⟨c3cex.getD 0 0, c3cex.getD 1 0, readI32v c3cex 2, readU32v c3cex 18,
        (slice c3cex 42 (readU32v c3cex 26)).take (readU32v c3cex 18), 0⟩ : SNAMemoryBlock) ::
        rest := by
  exact sna_uncompressed_payload c3cex 55 0 0
    [⟨0, 0, 0, 4, [1, 2, 3, 4], 0⟩, ⟨0, 0, -1, 0, [], 4⟩] 56
    (by decide) (by decide) (by decide) (by decide) (by decide)

/-- Cursor monotonicity of the container-parser loop. -/
theorem snaLoop_mono (data : List Nat) :
    ∀ fuel pos cdp blocks p, snaLoop data fuel pos cdp = .ok (blocks, p) → pos ≤ p := by
  intro fuel
  induction fuel with
  | zero =>
    intro pos cdp blocks p h
    rw [snaLoop] at h
    injection h with h1
    injection h1 with _ h2
    omega
  | succ fuel ih =>
    intro pos cdp blocks p h
    rw [snaLoop] at h
    by_cases hpos : pos < data.length
    case neg =>
      rw [if_neg hpos] at h
      injection h with h1
      injection h1 with _ h2
      omega
    rw [if_pos hpos] at h
    rcases hu1 : readU8 data pos with e | m <;> rw [hu1] at h
    · simp at h
    rcases hu2 : readU8 data (pos + 1) with e | bId <;> rw [hu2] at h
    · simp at h
    by_cases hbase : readI32v data (pos + 2) = -1
    · simp only [if_pos hbase] at h
      injection h with h1
      injection h1 with _ h2
      omega
    simp only [if_neg hbase] at h
    by_cases hbs : 0 < readU32v data (pos + 18)
    · simp only [if_pos hbs] at h
      split at h
      · simp at h
      split at h
      · simp at h
      rename_i rest p' heq
      injection h with h1
      injection h1 with _ h2
      have := ih _ _ _ _ heq
      omega
    · simp only [if_neg hbs] at h
      split at h
      · simp at h
      rename_i rest p' heq
      injection h with h1
      injection h1 with _ h2
      have := ih _ _ _ _ heq
      omega

/-- Structural facts about a successful parse that contains a block with
base address `-1`: that block is the last element, it has empty payload
and size 0, and the final cursor is at least 6 bytes per parsed
block past the start. -/
theorem snaLoop_terminator (data : List Nat) :
    ∀ fuel pos cdp blocks p, snaLoop data fuel pos cdp = .ok (blocks, p) →
      ∀ b ∈ blocks, b.base_in_memory = -1 →
        blocks.getLast? = some b ∧ b.data = [] ∧ b.size = 0 ∧ pos + 6 * blocks.length ≤ p := by
  intro fuel
  induction fuel with
  | zero =>
    intro pos cdp blocks p h b hb _
    rw [snaLoop] at h
    injection h with h1
    injection h1 with hbl _
    subst hbl
    cases hb
  | succ fuel ih =>
    intro pos cdp blocks p h b hb hbase
    rw [snaLoop] at h
    by_cases hpos : pos < data.length
    case neg =>
      rw [if_neg hpos] at h
      injection h with h1
      injection h1 with hbl _
      subst hbl
      cases hb
    rw [if_pos hpos] at h
    rcases hu1 : readU8 data pos with e | m <;> rw [hu1] at h
    · simp at h
    rcases hu2 : readU8 data (pos + 1) with e | bId <;> rw [hu2] at h
    · simp at h
    by_cases hbne : readI32v data (pos + 2) = -1
    · -- terminator record
      simp only [if_pos hbne] at h
      injection h with h1
      injection h1 with hbl hp
      subst hbl
      subst hp
      rcases List.mem_singleton.mp hb with rfl
      refine ⟨rfl, rfl, rfl, ?_⟩
      simp only [List.length_singleton]
      omega
    simp only [if_neg hbne] at h
    by_cases hbs : 0 < readU32v data (pos + 18)
    · simp only [if_pos hbs] at h
      split at h
      · simp at h
      split at h
      · simp at h
      rename_i rest p' heq
      injection h with h1
      injection h1 with hbl hp
      subst hbl
      subst hp
      rcases List.mem_cons.mp hb with rfl | hmem
      · exact absurd hbase hbne
      · obtain ⟨hlast, hdata, hsize, hlen⟩ := ih _ _ _ _ heq b hmem hbase
        have hmono := snaLoop_mono data fuel _ _ _ _ heq
        refine ⟨?_, hdata, hsize, ?_⟩
        · cases rest with
          | nil => cases hmem
          | cons r rs => rw [List.getLast?_cons_cons]; exact hlast
        · simp only [List.length_cons]
          omega
    · simp only [if_neg hbs] at h
      split at h
      · simp at h
      rename_i rest p' heq
      injection h with h1
      injection h1 with hbl hp
      subst hbl
      subst hp
      rcases List.mem_cons.mp hb with rfl | hmem
      · exact absurd hbase hbne
      · obtain ⟨hlast, hdata, hsize, hlen⟩ := ih _ _ _ _ heq b hmem hbase
        have hmono := snaLoop_mono data fuel _ _ _ _ heq
        refine ⟨?_, hdata, hsize, ?_⟩
        · cases rest with
          | nil => cases hmem
          | cons r rs => rw [List.getLast?_cons_cons]; exact hlast
        · simp only [List.length_cons]
          omega

/-- Elements strictly before the cut point of `data.take p ++ junk` read
the same as in `data`. -/
theorem getElem?_cut (data junk : List Nat) (p q : Nat) (hq : q < p) (hp : p ≤ data.length) :
    (data.take p ++ junk)[q]? = data[q]? := by
  have hlen : q < (data.take p).length := by
    simp only [List.length_take]
    omega
  rw [List.getElem?_append, if_pos hlen, List.getElem?_take, if_pos hq]

/-- Lemma: `slice` is unaffected by replacing everything at or after `p` as long
as the slice ends by `p`. -/
theorem slice_cut (data junk : List Nat) (pos k p : Nat) (h1 : pos + k ≤ p)
    (hp : p ≤ data.length) :
    slice (data.take p ++ junk) pos k = slice data pos k := by
  apply List.ext_getElem?
  intro j
  rw [slice, slice, List.getElem?_take, List.getElem?_take]
  by_cases hj : j < k
  · rw [if_pos hj, if_pos hj, List.getElem?_drop, List.getElem?_drop]
    exact getElem?_cut data junk p (pos + j) (by omega) hp
  · rw [if_neg hj, if_neg hj]

/-- Lemma: `readU8` is unaffected by the cut when it reads before `p`. -/
theorem readU8_cut (data junk : List Nat) (q p : Nat) (hq : q < p) (hp : p ≤ data.length) :
    readU8 (data.take p ++ junk) q = readU8 data q := by
  have hlen : (data.take p ++ junk).length = p + junk.length := by
    simp only [List.length_append, List.length_take]
    omega
  rw [readU8, readU8, if_pos (show q < (data.take p ++ junk).length by rw [hlen]; omega),
    if_pos (show q < data.length by omega)]
  rw [List.getD_eq_getElem?_getD, List.getD_eq_getElem?_getD, getElem?_cut data junk p q hq hp]

/-- Lemma: `readU32v` is unaffected by the cut when its 4 bytes end by `p`. -/
theorem readU32v_cut (data junk : List Nat) (q p : Nat) (hq : q + 4 ≤ p)
    (hp : p ≤ data.length) :
    readU32v (data.take p ++ junk) q = readU32v data q := by
  rw [readU32v, readU32v, slice_cut data junk q 4 p hq hp]

/-- Lemma: `readI32v` is unaffected by the cut when its 4 bytes end by `p`. -/
theorem readI32v_cut (data junk : List Nat) (q p : Nat) (hq : q + 4 ≤ p)
    (hp : p ≤ data.length) :
    readI32v (data.take p ++ junk) q = readI32v data q := by
  rw [readI32v, readI32v, slice_cut data junk q 4 p hq hp]

/-- A parse that ends at a terminator reads nothing at or past its final
cursor `p`: re-running it on `data.take p ++ junk` (the same bytes up
to `p`, anything after) gives the same result, for any fuel of at
least one unit per parsed block. -/
theorem snaLoop_cut (data junk : List Nat) :
    ∀ fuel pos cdp blocks p,
      snaLoop data fuel pos cdp = .ok (blocks, p) →
      (∃ b ∈ blocks, b.base_in_memory = -1) → p ≤ data.length →
      ∀ fuel₂, blocks.length ≤ fuel₂ →
        snaLoop (data.take p ++ junk) fuel₂ pos cdp = .ok (blocks, p) := by
  intro fuel
  induction fuel with
  | zero =>
    intro pos cdp blocks p h hterm hp fuel₂ hf
    rw [snaLoop] at h
    injection h with h1
    injection h1 with hbl _
    subst hbl
    obtain ⟨b, hb, _⟩ := hterm
    cases hb
  | succ fuel ih =>
    intro pos cdp blocks p h hterm hp fuel₂ hf
    have hlen2 : (data.take p ++ junk).length = p + junk.length := by
      simp only [List.length_append, List.length_take]
      omega
    rw [snaLoop] at h
    by_cases hpos : pos < data.length
    case neg =>
      rw [if_neg hpos] at h
      injection h with h1
      injection h1 with hbl _
      subst hbl
      obtain ⟨b, hb, _⟩ := hterm
      cases hb
    rw [if_pos hpos] at h
    obtain ⟨bt, hbt, hbtbase⟩ := hterm
    rcases hu1 : readU8 data pos with e | m <;> rw [hu1] at h
    · simp at h
    rcases hu2 : readU8 data (pos + 1) with e | bId <;> rw [hu2] at h
    · simp at h
    obtain ⟨f₂, rfl⟩ : ∃ f₂, fuel₂ = f₂ + 1 := by
      cases fuel₂ with
      | zero =>
        have : blocks ≠ [] := by
          intro hempty
          rw [hempty] at hbt
          cases hbt
        cases blocks with
        | nil => exact absurd rfl this
        | cons x xs => simp at hf
      | succ f₂ => exact ⟨f₂, rfl⟩
    by_cases hbase : readI32v data (pos + 2) = -1
    · -- terminator record: blocks = [·], p = pos + 6
      simp only [if_pos hbase] at h
      injection h with h1
      injection h1 with hbl hp6
      subst hbl
      subst hp6
      rw [snaLoop,
        if_pos (show pos < (data.take (pos + 6) ++ junk).length by rw [hlen2]; omega)]
      simp only [readU8_cut data junk pos (pos + 6) (by omega) hp,
        readU8_cut data junk (pos + 1) (pos + 6) (by omega) hp,
        readI32v_cut data junk (pos + 2) (pos + 6) (by omega) hp,
        hu1, hu2, if_pos hbase]
    simp only [if_neg hbase] at h
    have hbtbase' := hbtbase
    by_cases hbs : 0 < readU32v data (pos + 18)
    · simp only [if_pos hbs] at h
      split at h
      · simp at h
      rename_i blockData hdc
      split at h
      · simp at h
      rename_i rest p' heq
      injection h with h1
      injection h1 with hbl hpp
      subst hbl
      subst hpp
      have hmono := snaLoop_mono data fuel _ _ _ _ heq
      have hbtmem : bt ∈ rest := by
        rcases List.mem_cons.mp hbt with rfl | hmem
        · exact absurd hbtbase hbase
        · exact hmem
      have ihres := ih (pos + 42 + readU32v data (pos + 26)) (cdp + blockData.length)
        rest p' heq ⟨bt, hbtmem, hbtbase'⟩ hp f₂
        (by simp only [List.length_cons] at hf; omega)
      rw [snaLoop,
        if_pos (show pos < (data.take p' ++ junk).length by rw [hlen2]; omega)]
      simp only [readU8_cut data junk pos p' (by omega) hp,
        readU8_cut data junk (pos + 1) p' (by omega) hp,
        readI32v_cut data junk (pos + 2) p' (by omega) hp,
        readU32v_cut data junk (pos + 18) p' (by omega) hp,
        readU32v_cut data junk (pos + 22) p' (by omega) hp,
        readU32v_cut data junk (pos + 26) p' (by omega) hp,
        readU32v_cut data junk (pos + 34) p' (by omega) hp,
        slice_cut data junk (pos + 42) (readU32v data (pos + 26)) p' (by omega) hp,
        hu1, hu2, if_neg hbase, if_pos hbs, hdc, ihres]
    · simp only [if_neg hbs] at h
      split at h
      · simp at h
      rename_i rest p' heq
      injection h with h1
      injection h1 with hbl hpp
      subst hbl
      subst hpp
      have hmono := snaLoop_mono data fuel _ _ _ _ heq
      have hbtmem : bt ∈ rest := by
        rcases List.mem_cons.mp hbt with rfl | hmem
        · exact absurd hbtbase hbase
        · exact hmem
      have ihres := ih (pos + 22) cdp rest p' heq ⟨bt, hbtmem, hbtbase'⟩ hp f₂
        (by simp only [List.length_cons] at hf; omega)
      rw [snaLoop,
        if_pos (show pos < (data.take p' ++ junk).length by rw [hlen2]; omega)]
      simp only [readU8_cut data junk pos p' (by omega) hp,
        readU8_cut data junk (pos + 1) p' (by omega) hp,
        readI32v_cut data junk (pos + 2) p' (by omega) hp,
        readU32v_cut data junk (pos + 18) p' (by omega) hp,
        hu1, hu2, if_neg hbase, if_neg hbs, ihres]

/-- C5: in every successful parse, a block with `baseAddress = -1` is
the **last** block of the list, carries an empty payload (and size 0),
and parsing stopped at it without inspecting any later byte: when the
final cursor `p` is within the input, every byte from `p` on can be
replaced arbitrarily (`data.take p ++ junk`) without changing the
parse result. -/
theorem sna_terminator_last (data : List Nat) (blocks : List SNAMemoryBlock) (p : Nat)
    (h : snaReadAux data = .ok (blocks, p)) (b : SNAMemoryBlock) (hb : b ∈ blocks)
    (ht : b.base_in_memory = -1) :
    blocks.getLast? = some b ∧ b.data = [] ∧ b.size = 0 ∧
    (p ≤ data.length → ∀ junk, snaRead (data.take p ++ junk) = .ok blocks) := by
  rw [snaReadAux] at h
  obtain ⟨hlast, hdata, hsize, hlen⟩ := snaLoop_terminator data data.length 0 0 blocks p h b hb ht
  refine ⟨hlast, hdata, hsize, fun hp junk => ?_⟩
  have hcut := snaLoop_cut data junk data.length 0 0 blocks p h ⟨b, hb, ht⟩ hp
    (data.take p ++ junk).length
    (by simp only [List.length_append, List.length_take]; omega)
  rw [snaRead, snaReadAux, hcut]
  rfl

/-- Witness for `sna_terminator_last`: a terminator-only container with
two trailing junk bytes; the parse result survives replacing the junk
with the byte 7. -/
theorem sna_terminator_last_wit :
    ([(⟨0, 0, -1, 0, [], 0⟩ : SNAMemoryBlock)]).getLast? = some ⟨0, 0, -1, 0, [], 0⟩ ∧
    snaRead (([0, 0, 255, 255, 255, 255, 9, 9] : List Nat).take 6 ++ [7]) =
      .ok [⟨0, 0, -1, 0, [], 0⟩] := by
  have h := sna_terminator_last [0, 0, 255, 255, 255, 255, 9, 9] [⟨0, 0, -1, 0, [], 0⟩] 6
    (by decide) ⟨0, 0, -1, 0, [], 0⟩ (by decide) (by decide)
  exact ⟨h.1, h.2.2.2 (by decide) [7]⟩

/-- Lemma: `writeAt` never changes the length of the output buffer. -/
theorem writeAt_length : ∀ (d out : List Nat) (o : Nat), (writeAt out o d).length = out.length
  | [], _, _ => rfl
  | b :: bs, out, o => by
    rw [writeAt, writeAt_length bs, List.length_set]

/-- Lemma: `writeAt` leaves indices below the write offset unchanged. -/
theorem writeAt_getElem?_low :
    ∀ (d out : List Nat) (o j : Nat), j < o → (writeAt out o d)[j]? = out[j]?
  | [], _, _, _, _ => rfl
  | b :: bs, out, o, j, hj => by
    rw [writeAt, writeAt_getElem?_low bs _ _ _ (by omega),
      List.getElem?_set_ne (by omega)]

/-- Lemma: `writeAt` leaves indices at or past the end of the write unchanged. -/
theorem writeAt_getElem?_high :
    ∀ (d out : List Nat) (o j : Nat), o + d.length ≤ j → (writeAt out o d)[j]? = out[j]?
  | [], _, _, _, _ => rfl
  | b :: bs, out, o, j, hj => by
    rw [writeAt, writeAt_getElem?_high bs _ _ _ (by simp at hj ⊢; omega),
      List.getElem?_set_ne (by simp at hj; omega)]

/-- Inside an in-bounds write, `writeAt` stores exactly the written
bytes. -/
theorem writeAt_getElem?_mid :
    ∀ (d out : List Nat) (o k : Nat), o + d.length ≤ out.length → k < d.length →
      (writeAt out o d)[o + k]? = d[k]?
  | [], _, _, k, _, hk => by simp at hk
  | b :: bs, out, o, k, hlen, hk => by
    cases k with
    | zero =>
      rw [writeAt, writeAt_getElem?_low bs _ _ _ (by omega)]
      have ho : o < out.length := by simp at hlen; omega
      simp [List.getElem?_set_eq_of_lt b ho]
    | succ k =>
      rw [writeAt]
      have := writeAt_getElem?_mid bs (out.set o b) (o + 1) k
        (by rw [List.length_set]; simp at hlen; omega) (by simp at hk; omega)
      rw [show o + (k + 1) = o + 1 + k by omega, this]
      simp

/-- A successful `_read_bytes` returns exactly the requested number of
source bytes. -/
theorem readBytesSrc_spec (n : Nat) (src d s' : List Nat)
    (h : readBytesSrc n src = .ok (d, s')) : d.length = n := by
  rw [readBytesSrc] at h
  split at h
  · exact Except.noConfusion h
  · injection h with h1
    injection h1 with hd _
    subst hd
    rename_i hle
    exact List.length_take_of_le (by omega)

/-- A successful `readIntoFresh` returns exactly the requested number of
bytes. -/
theorem readIntoFresh_spec (st : LzoSt) (n : Nat) (d : List Nat) (st' : LzoSt)
    (h : readIntoFresh st n = .ok (d, st')) : d.length = n := by
  rw [readIntoFresh] at h
  rcases hr : readBytesSrc n st.src with e | ⟨dd, ss⟩ <;> rw [hr] at h
  · simp at h
  · simp only [exceptBind_ok] at h
    injection h with h1
    injection h1 with hd _
    rw [← hd]
    exact readBytesSrc_spec n st.src dd ss hr

/-- Lemma: `copyFromSource` preserves the output length and touches only the
`n` bytes at the write offset. -/
theorem copyFromSource_spec (st : LzoSt) (out : List Nat) (o n : Nat) (out' : List Nat)
    (st' : LzoSt) (h : copyFromSource st out o n = .ok (out', st')) :
    out'.length = out.length ∧ ∀ j, j < o ∨ o + n ≤ j → out'[j]? = out[j]? := by
  rw [copyFromSource] at h
  rcases hr : readIntoFresh st n with e | ⟨d, st₁⟩ <;> rw [hr] at h
  · simp at h
  · simp only [exceptBind_ok] at h
    injection h with h1
    injection h1 with hout _
    subst hout
    have hd := readIntoFresh_spec st n d st₁ hr
    refine ⟨writeAt_length d out o, fun j hj => ?_⟩
    rcases hj with hj | hj
    · exact writeAt_getElem?_low d out o j hj
    · exact writeAt_getElem?_high d out o j (by omega)

/-- The ring-copy helper returns exactly `n` bytes. -/
theorem ringCopyGo_length :
    ∀ (n : Nat) (r : RingBuffer) (rp : Nat), (RingBuffer.copyGo r rp n).1.length = n
  | 0, _, _ => rfl
  | n + 1, r, rp => by
    rw [RingBuffer.copyGo]
    rcases hgo : RingBuffer.copyGo (r.put (r.get rp)) ((rp + 1) % ringSize) n with ⟨bs, r''⟩
    have := ringCopyGo_length n (r.put (r.get rp)) ((rp + 1) % ringSize)
    rw [hgo] at this
    simp only [hgo]
    simpa using this

/-- Lemma: `RingBuffer.copy` returns exactly `n` bytes. -/
theorem ringCopy_length (r : RingBuffer) (d n : Nat) : (r.copy d n).1.length = n :=
  ringCopyGo_length n r _

/-- Lemma: `_copy_from_ring_buffer` preserves the output length and writes only
the `read` bytes at the write offset (whether or not part of the copy
was buffered). -/
theorem copyFromRing_spec (st : LzoSt) (out : List Nat)
    (off cnt dist cpy trail read : Nat) (st' : LzoSt) (out' : List Nat)
    (h : copyFromRing st out off cnt dist cpy trail = .ok (read, st', out')) :
    out'.length = out.length ∧ ∀ j, j < off ∨ off + read ≤ j → out'[j]? = out[j]? := by
  rw [copyFromRing] at h
  by_cases h1 : cnt < cpy + trail
  · simp only [if_pos h1] at h
    by_cases h2 : cnt ≤ cpy
    · simp only [if_pos h2] at h
      rcases hc1 : st.ring.copy dist cnt with ⟨bs1, ring1⟩
      rw [hc1] at h
      have hbs1 : bs1.length = cnt := by
        have := ringCopy_length st.ring dist cnt
        rw [hc1] at this
        exact this
      rcases hc2 : ring1.copy dist (cpy - cnt) with ⟨bs2, ring2⟩
      rw [hc2] at h
      by_cases h3 : 0 < trail
      · simp only [if_pos h3] at h
        rcases hri : readIntoFresh { st with ring := ring2 } trail with e | ⟨tl, st₂⟩ <;>
          rw [hri] at h
        · simp at h
        · simp only [exceptBind_ok] at h
          injection h with h1'
          injection h1' with hread hrest
          injection hrest with _ hout
          subst hout
          subst hread
          refine ⟨writeAt_length bs1 out off, fun j hj => ?_⟩
          rcases hj with hj | hj
          · exact writeAt_getElem?_low bs1 out off j hj
          · exact writeAt_getElem?_high bs1 out off j (by omega)
      · simp only [if_neg h3] at h
        injection h with h1'
        injection h1' with hread hrest
        injection hrest with _ hout
        subst hout
        subst hread
        refine ⟨writeAt_length bs1 out off, fun j hj => ?_⟩
        rcases hj with hj | hj
        · exact writeAt_getElem?_low bs1 out off j hj
        · exact writeAt_getElem?_high bs1 out off j (by omega)
    · simp only [if_neg h2] at h
      rcases hc1 : st.ring.copy dist cpy with ⟨bs1, ring1⟩
      rw [hc1] at h
      have hbs1 : bs1.length = cpy := by
        have := ringCopy_length st.ring dist cpy
        rw [hc1] at this
        exact this
      rcases hri : readIntoFresh { st with ring := ring1 } (cnt - cpy) with e | ⟨d1, st₂⟩ <;>
        rw [hri] at h
      · simp at h
      simp only [exceptBind_ok] at h
      rcases hri2 : readIntoFresh st₂ (trail - (cnt - cpy)) with e | ⟨d2, st₃⟩ <;>
        rw [hri2] at h
      · simp at h
      simp only [exceptBind_ok] at h
      injection h with h1'
      injection h1' with hread hrest
      injection hrest with _ hout
      subst hout
      subst hread
      have hd1 := readIntoFresh_spec _ _ _ _ hri
      refine ⟨by rw [writeAt_length, writeAt_length], fun j hj => ?_⟩
      rcases hj with hj | hj
      · rw [writeAt_getElem?_low d1 _ _ _ (by omega),
          writeAt_getElem?_low bs1 out off j hj]
      · rw [writeAt_getElem?_high d1 _ _ _ (by omega),
          writeAt_getElem?_high bs1 out off j (by omega)]
  · simp only [if_neg h1] at h
    rcases hc1 : st.ring.copy dist cpy with ⟨bs1, ring1⟩
    rw [hc1] at h
    have hbs1 : bs1.length = cpy := by
      have := ringCopy_length st.ring dist cpy
      rw [hc1] at this
      exact this
    by_cases h3 : 0 < trail
    · simp only [if_pos h3] at h
      rcases hri : readIntoFresh { st with ring := ring1 } trail with e | ⟨tl, st₂⟩ <;>
        rw [hri] at h
      · simp at h
      simp only [exceptBind_ok] at h
      injection h with h1'
      injection h1' with hread hrest
      injection hrest with _ hout
      subst hout
      subst hread
      have htl := readIntoFresh_spec _ _ _ _ hri
      refine ⟨by rw [writeAt_length, writeAt_length], fun j hj => ?_⟩
      rcases hj with hj | hj
      · rw [writeAt_getElem?_low tl _ _ _ (by omega),
          writeAt_getElem?_low bs1 out off j hj]
      · rw [writeAt_getElem?_high tl _ _ _ (by omega),
          writeAt_getElem?_high bs1 out off j (by omega)]
    · simp only [if_neg h3] at h
      injection h with h1'
      injection h1' with hread hrest
      injection hrest with _ hout
      subst hout
      subst hread
      refine ⟨writeAt_length bs1 out off, fun j hj => ?_⟩
      rcases hj with hj | hj
      · exact writeAt_getElem?_low bs1 out off j hj
      · exact writeAt_getElem?_high bs1 out off j (by omega)

/-- Lemma: `decodeTail` only reads the next instruction byte: the `read` count
and output buffer pass through unchanged. -/
theorem decodeTail_spec (read : Nat) (st : LzoSt) (out : List Nat)
    (read' : Nat) (st' : LzoSt) (out' : List Nat)
    (h : decodeTail read st out = .ok (.more read' st' out')) :
    read' = read ∧ out' = out := by
  rw [decodeTail] at h
  rcases hr : readByteSrc st.src with e | ⟨i, src'⟩ <;> rw [hr] at h
  · simp at h
  · simp only [exceptBind_ok] at h
    injection h with h1
    injection h1 with hread _ hout
    exact ⟨hread.symm, hout.symm⟩

/-- Reduction of `Except` pure. -/
@[simp] theorem exceptPure_eq {ε α : Type} (a : α) : (pure a : Except ε α) = .ok a := rfl

/-- Frame property of a ring-buffer copy followed by the shared
instruction tail. -/
theorem ringThenTail_spec (st1 : LzoSt) (out : List Nat) (off cnt dist cpy trail : Nat)
    (read : Nat) (st2 : LzoSt) (out2 : List Nat)
    (h : ((do
        let (r, s, o) ← copyFromRing st1 out off cnt dist cpy trail
        decodeTail r s o : Except LzoErr DecodeResult)) = .ok (.more read st2 out2)) :
    out2.length = out.length ∧ ∀ j, j < off ∨ off + read ≤ j → out2[j]? = out[j]? := by
  rcases hc : copyFromRing st1 out off cnt dist cpy trail with e | ⟨r, s, o⟩ <;> rw [hc] at h
  · simp at h
  · simp only [exceptBind_ok] at h
    obtain ⟨hr, ho⟩ := decodeTail_spec r s o read st2 out2 h
    rw [hr, ho]
    exact copyFromRing_spec st1 out off cnt dist cpy trail r s o hc

/-- Frame property of the long-literal-run (`ZERO_COPY` state) tail. -/
theorem zeroCopyTail_spec (st1 : LzoSt) (out : List Nat) (offset count length : Nat)
    (read : Nat) (st' : LzoSt) (out' : List Nat)
    (h : (if length > count then do
            let (out1, st2) ← copyFromSource st1 out offset count
            let (buf, st3) ← readIntoFresh st2 (length - count)
            decodeTail count { st3 with buffer := buf, state := 4 } out1
          else do
            let (out1, st2) ← copyFromSource st1 out offset length
            decodeTail length { st2 with state := 4 } out1) = .ok (.more read st' out')) :
    out'.length = out.length ∧ ∀ j, j < offset ∨ offset + read ≤ j → out'[j]? = out[j]? := by
  split at h
  · rcases hcs : copyFromSource st1 out offset count with e | ⟨out1, st2⟩ <;> rw [hcs] at h
    · simp at h
    simp only [exceptBind_ok] at h
    rcases hri : readIntoFresh st2 (length - count) with e | ⟨buf, st3⟩ <;> rw [hri] at h
    · simp at h
    simp only [exceptBind_ok] at h
    obtain ⟨hr, ho⟩ := decodeTail_spec _ _ _ _ _ _ h
    subst hr
    subst ho
    obtain ⟨hl, hf⟩ := copyFromSource_spec _ _ _ _ _ _ hcs
    exact ⟨hl, fun j hj => hf j (by omega)⟩
  · rcases hcs : copyFromSource st1 out offset length with e | ⟨out1, st2⟩ <;> rw [hcs] at h
    · simp at h
    simp only [exceptBind_ok] at h
    obtain ⟨hr, ho⟩ := decodeTail_spec _ _ _ _ _ _ h
    subst hr
    subst ho
    obtain ⟨hl, hf⟩ := copyFromSource_spec _ _ _ _ _ _ hcs
    exact ⟨hl, fun j hj => hf j (by omega)⟩

/-- Frame property of the long-distance (16-31) branch tail: either the
end-of-stream sentinel (contradicting a `.more` result) or a ring copy
plus tail. -/
theorem matchTail16_spec (st : LzoSt) (src1 : List Nat) (out : List Nat)
    (offset count length : Nat) (read : Nat) (st' : LzoSt) (out' : List Nat)
    (h : ((do
        let (s, src2) ← readByteSrc src1
        let (d0, src3) ← readByteSrc src2
        let d := ((d0 <<< 8) ||| s) >>> 2
        let distance := (16384 + ((st.instruction &&& 0x8) <<< 11)) ||| d
        if distance = 16384 then
          Except.ok (DecodeResult.eos { st with src := src3 })
        else do
          let (r, s', o') ← copyFromRing { st with src := src3 } out offset count distance
            length (s &&& 0x3)
          decodeTail r s' o' : Except LzoErr DecodeResult)) = .ok (.more read st' out')) :
    out'.length = out.length ∧ ∀ j, j < offset ∨ offset + read ≤ j → out'[j]? = out[j]? := by
  rcases hb1 : readByteSrc src1 with e | ⟨s, src2⟩ <;> rw [hb1] at h
  · simp at h
  simp only [exceptBind_ok] at h
  rcases hb2 : readByteSrc src2 with e | ⟨d0, src3⟩ <;> rw [hb2] at h
  · simp at h
  simp only [exceptBind_ok] at h
  split at h
  · simp at h
  · exact ringThenTail_spec _ _ _ _ _ _ _ _ _ _ h

/-- Lemma: `_decode` preserves the output length and writes only the `read`
bytes at the write offset. -/
theorem decode_spec (st : LzoSt) (out : List Nat) (offset count : Nat)
    (read : Nat) (st' : LzoSt) (out' : List Nat)
    (h : decode st out offset count = .ok (.more read st' out')) :
    out'.length = out.length ∧ ∀ j, j < offset ∨ offset + read ≤ j → out'[j]? = out[j]? := by
  rw [decode] at h
  by_cases hi15 : st.instruction ≤ 15
  · simp only [if_pos hi15] at h
    by_cases hst0 : st.state = 0
    · simp only [if_pos hst0] at h
      split at h
      · simp only [exceptPure_eq, exceptBind_ok] at h
        exact zeroCopyTail_spec _ _ _ _ _ _ _ _ h
      · rcases hrl : readLength st.src 0 with e | ⟨l, sr⟩ <;> rw [hrl] at h
        · simp at h
        simp only [exceptBind_ok, exceptPure_eq] at h
        exact zeroCopyTail_spec _ _ _ _ _ _ _ _ h
    · simp only [if_neg hst0] at h
      by_cases hst3 : st.state ≤ 3
      · simp only [if_pos hst3] at h
        rcases hb : readByteSrc st.src with e | ⟨hbyte, src1⟩ <;> rw [hb] at h
        · simp at h
        simp only [exceptBind_ok] at h
        exact ringThenTail_spec _ _ _ _ _ _ _ _ _ _ h
      · simp only [if_neg hst3] at h
        rcases hb : readByteSrc st.src with e | ⟨hbyte, src1⟩ <;> rw [hb] at h
        · simp at h
        simp only [exceptBind_ok] at h
        exact ringThenTail_spec _ _ _ _ _ _ _ _ _ _ h
  · simp only [if_neg hi15] at h
    by_cases hi32 : st.instruction < 32
    · simp only [if_pos hi32] at h
      split at h
      · simp only [exceptPure_eq, exceptBind_ok] at h
        exact matchTail16_spec _ _ _ _ _ _ _ _ _ h
      · rcases hrl : readLength st.src 0 with e | ⟨l, sr⟩ <;> rw [hrl] at h
        · simp at h
        simp only [exceptBind_ok, exceptPure_eq] at h
        exact matchTail16_spec _ _ _ _ _ _ _ _ _ h
    · simp only [if_neg hi32] at h
      by_cases hi64 : st.instruction < 64
      · simp only [if_pos hi64] at h
        split at h
        · simp only [exceptPure_eq, exceptBind_ok] at h
          rcases hb1 : readByteSrc st.src with e | ⟨s, src2⟩ <;> rw [hb1] at h
          · simp at h
          simp only [exceptBind_ok] at h
          rcases hb2 : readByteSrc src2 with e | ⟨d0, src3⟩ <;> rw [hb2] at h
          · simp at h
          simp only [exceptBind_ok] at h
          exact ringThenTail_spec _ _ _ _ _ _ _ _ _ _ h
        · rcases hrl : readLength st.src 0 with e | ⟨l, sr⟩ <;> rw [hrl] at h
          · simp at h
          simp only [exceptBind_ok, exceptPure_eq] at h
          rcases hb1 : readByteSrc sr with e | ⟨s, src2⟩ <;> rw [hb1] at h
          · simp at h
          simp only [exceptBind_ok] at h
          rcases hb2 : readByteSrc src2 with e | ⟨d0, src3⟩ <;> rw [hb2] at h
          · simp at h
          simp only [exceptBind_ok] at h
          exact ringThenTail_spec _ _ _ _ _ _ _ _ _ _ h
      · simp only [if_neg hi64] at h
        by_cases hi128 : st.instruction < 128
        · simp only [if_pos hi128] at h
          rcases hb : readByteSrc st.src with e | ⟨hbyte, src1⟩ <;> rw [hb] at h
          · simp at h
          simp only [exceptBind_ok] at h
          exact ringThenTail_spec _ _ _ _ _ _ _ _ _ _ h
        · simp only [if_neg hi128] at h
          rcases hb : readByteSrc st.src with e | ⟨hbyte, src1⟩ <;> rw [hb] at h
          · simp at h
          simp only [exceptBind_ok] at h
          exact ringThenTail_spec _ _ _ _ _ _ _ _ _ _ h

/-- Invariants of the `decompress` loop: the output buffer never changes
length, the produced-byte counter never decreases, and every byte
outside the window `[pos, p)` of this run is left untouched. -/
theorem decompressLoop_spec (size : Nat) :
    ∀ fuel st out pos res p,
      decompressLoop size fuel st out pos = .ok (res, p) →
      res.length = out.length ∧ pos ≤ p ∧ ∀ j, j < pos ∨ p ≤ j → res[j]? = out[j]? := by
  intro fuel
  induction fuel with
  | zero =>
    intro st out pos res p h
    rw [decompressLoop] at h
    injection h with h1
    injection h1 with hres hp
    subst hres
    subst hp
    exact ⟨rfl, Nat.le_refl _, fun j _ => rfl⟩
  | succ fuel ih =>
    intro st out pos res p h
    rw [decompressLoop] at h
    by_cases hps : pos < size
    case neg =>
      rw [if_neg hps] at h
      injection h with h1
      injection h1 with hres hp
      subst hres
      subst hp
      exact ⟨rfl, Nat.le_refl _, fun j _ => rfl⟩
    rw [if_pos hps] at h
    by_cases hbuf : st.buffer ≠ []
    · simp only [if_pos hbuf] at h
      obtain ⟨hlen, hmono, hframe⟩ := ih _ _ _ _ _ h
      have hcopt : (st.buffer.take (min st.buffer.length (size - pos))).length =
          min st.buffer.length (size - pos) :=
        List.length_take_of_le (by omega)
      refine ⟨by rw [hlen, writeAt_length], by omega, fun j hj => ?_⟩
      rw [hframe j (by omega)]
      rcases hj with hj | hj
      · exact writeAt_getElem?_low _ _ _ _ hj
      · exact writeAt_getElem?_high _ _ _ _ (by rw [hcopt]; omega)
    · simp only [if_neg hbuf] at h
      split at h
      · simp at h
      · injection h with h1
        injection h1 with hres hp
        subst hres
        subst hp
        exact ⟨rfl, Nat.le_refl _, fun j _ => rfl⟩
      · rename_i read st2 out2 heq
        obtain ⟨hlen, hmono, hframe⟩ := ih _ _ _ _ _ h
        obtain ⟨hdlen, hdframe⟩ := decode_spec _ _ _ _ _ _ _ heq
        refine ⟨by rw [hlen, hdlen], by omega, fun j hj => ?_⟩
        rw [hframe j (by omega)]
        exact hdframe j (by omega)

/-- Splitting a bind with a first-projection continuation. -/
theorem except_bind_fst {ε α β : Type} {X : Except ε (α × β)} {out : α}
    (h : (X >>= fun x => Except.ok x.1) = .ok out) : ∃ p, X = .ok (out, p) := by
  rcases X with e | ⟨a, b⟩
  · simp at h
  · simp only [exceptBind_ok] at h
    injection h with h1
    exact ⟨b, by rw [h1]⟩

/-- C9: for non-empty input and a positive requested size, a successful
`decompress_lzo` returns exactly `decompressed_size` bytes (the loop
works in a preallocated zero-filled buffer of that length); and when
the underlying loop stops at `p` produced bytes (as it does at the
end-of-stream sentinel), every byte of the result from `p` on is the
untouched zero fill. -/
theorem lzo_output_size (data : List Nat) (size : Nat) (hd : data ≠ []) (hs : 0 < size)
    (out : List Nat) (h : decompress_lzo data size = .ok out) :
    out.length = size ∧
    ∀ st p, decodeFirstByte data = .ok st →
      decompressLoop size (size + 1) st (List.replicate size 0) 0 = .ok (out, p) →
      ∀ j, p ≤ j → j < size → out[j]? = some 0 := by
  rw [decompress_lzo, if_neg hd, if_neg (by omega : ¬size = 0)] at h
  rcases hfb : decodeFirstByte data with e | st₀ <;> rw [hfb] at h
  · simp at h
  simp only [exceptBind_ok] at h
  rw [lzoDecompress] at h
  rcases hlp : decompressLoop size (size + 1) st₀ (List.replicate size 0) 0 with e | ⟨res, p₀⟩ <;>
    rw [hlp] at h
  · simp at h
  simp only [exceptBind_ok] at h
  injection h with h1
  obtain ⟨hlen0, _, _⟩ :=
    decompressLoop_spec size (size + 1) st₀ (List.replicate size 0) 0 res p₀ hlp
  constructor
  · rw [← h1, hlen0, List.length_replicate]
  · intro st p hst hlp2 j hpj hjs
    obtain ⟨_, _, hframe⟩ :=
      decompressLoop_spec size (size + 1) st (List.replicate size 0) 0 out p hlp2
    rw [hframe j (Or.inr hpj), List.getElem?_replicate, if_pos hjs]

/-- Witness for `lzo_output_size`: `[0x12, 0x41, 0x11, 0, 0]` at size 3
produces one byte and hits the sentinel; the result is `[0x41, 0, 0]`
with the two unfilled bytes zero. -/
theorem lzo_output_size_wit :
    ([0x41, 0, 0] : List Nat).length = 3 ∧
    ([0x41, 0, 0] : List Nat)[1]? = some 0 ∧ ([0x41, 0, 0] : List Nat)[2]? = some 0 := by
  have h := lzo_output_size [0x12, 0x41, 0x11, 0x00, 0x00] 3 (by decide) (by decide)
    [0x41, 0, 0] (by decide)
  refine ⟨h.1, ?_, ?_⟩
  · exact h.2 ⟨[0x00, 0x00], ⟨[(0, 0x41)], 1⟩, 1, 0x11, [0x41]⟩ 1 (by decide) (by decide) 1
      (by decide) (by decide)
  · exact h.2 ⟨[0x00, 0x00], ⟨[(0, 0x41)], 1⟩, 1, 0x11, [0x41]⟩ 1 (by decide) (by decide) 2
      (by decide) (by decide)

/-- C6: on a non-empty compressed stream, a very first byte of 16 or 17
makes the decoder fail (`LZOError("Invalid first instruction")`, the
spec's `CorruptStream`), both at `_decode_first_byte` and through
`decompress_lzo` whenever a positive output size is requested (with
size 0, `decompress_lzo` returns an empty buffer without reading the
stream at all); a first byte of 18 or more encodes an initial literal
run of `value - 17` bytes, held in the decoder's pending buffer and
copied verbatim to the start of every decompressed output. -/
theorem lzo_first_byte (c : Nat) (rest : List Nat) :
    (16 ≤ c → c ≤ 17 →
      decodeFirstByte (c :: rest) = .error .invalidFirstInstruction ∧
      ∀ size, 0 < size →
        decompress_lzo (c :: rest) size = .error .invalidFirstInstruction) ∧
    (18 ≤ c → c - 17 + 1 ≤ rest.length →
      ∃ st, decodeFirstByte (c :: rest) = .ok st ∧ st.buffer = rest.take (c - 17) ∧
        ∀ size out, decompress_lzo (c :: rest) size = .ok out →
          out.take (min (c - 17) size) = rest.take (min (c - 17) size)) := by
  constructor
  · intro h16 h17
    have hfb : decodeFirstByte (c :: rest) = .error .invalidFirstInstruction := by
      simp only [decodeFirstByte, readByteSrc, exceptBind_ok]
      rw [if_pos (by omega : 15 < c ∧ c ≤ 17)]
    refine ⟨hfb, fun size hsz => ?_⟩
    rw [decompress_lzo, if_neg (by simp : ¬(c :: rest = [])),
      if_neg (by omega : ¬size = 0), hfb]
    rfl
  · intro h18 hlen
    have hrb : readBytesSrc (c - 17) rest = .ok (rest.take (c - 17), rest.drop (c - 17)) := by
      rw [readBytesSrc, if_neg (by omega : ¬rest.length < c - 17)]
    rcases hdrop : rest.drop (c - 17) with _ | ⟨i2, rest2⟩
    · exfalso
      have hld := congrArg List.length hdrop
      simp only [List.length_drop, List.length_nil] at hld
      omega
    have hfb : decodeFirstByte (c :: rest) =
        .ok ⟨rest2, RingBuffer.init.write (rest.take (c - 17)),
          if c ≤ 21 then c - 17 else 4, i2, rest.take (c - 17)⟩ := by
      simp only [decodeFirstByte, readByteSrc, exceptBind_ok]
      rw [if_neg (by omega : ¬(15 < c ∧ c ≤ 17)), if_pos h18]
      simp only [readIntoFresh, hrb, exceptBind_ok, hdrop, readByteSrc]
    refine ⟨⟨rest2, RingBuffer.init.write (rest.take (c - 17)),
      if c ≤ 21 then c - 17 else 4, i2, rest.take (c - 17)⟩, hfb, rfl,
      fun size out hout => ?_⟩
    have hlength : (rest.take (c - 17)).length = c - 17 :=
      List.length_take_of_le (by omega)
    by_cases hsz : size = 0
    · subst hsz
      rw [decompress_lzo, if_neg (by simp : ¬(c :: rest = [])), if_pos rfl] at hout
      injection hout with h1
      rw [← h1]
      simp
    · rw [decompress_lzo, if_neg (by simp : ¬(c :: rest = [])), if_neg hsz, hfb] at hout
      simp only [exceptBind_ok] at hout
      rw [lzoDecompress] at hout
      obtain ⟨p, hlp⟩ := except_bind_fst hout
      have hbufne : rest.take (c - 17) ≠ [] := by
        intro hempty
        rw [hempty] at hlength
        simp only [List.length_nil] at hlength
        omega
      rw [decompressLoop, if_pos (by omega : 0 < size), if_pos hbufne] at hlp
      obtain ⟨hlen', hmono, hframe⟩ := decompressLoop_spec size size _ _ _ out p hlp
      have hdlen : ((rest.take (c - 17)).take
          (min (rest.take (c - 17)).length (size - 0))).length =
          min (rest.take (c - 17)).length (size - 0) :=
        List.length_take_of_le (Nat.min_le_left _ _)
      apply List.ext_getElem?
      intro j
      rw [List.getElem?_take, List.getElem?_take]
      by_cases hj : j < min (c - 17) size
      · rw [if_pos hj, if_pos hj]
        rw [hframe j (Or.inl (by rw [hlength] at *; omega))]
        have hmid := writeAt_getElem?_mid
          ((rest.take (c - 17)).take (min (rest.take (c - 17)).length (size - 0)))
          (List.replicate size 0) 0 j
          (by rw [hdlen, List.length_replicate]; omega)
          (by rw [hdlen, hlength]; omega)
        simp only [Nat.zero_add] at hmid
        rw [hmid]
        rw [List.getElem?_take, if_pos (by rw [hlength]; omega),
          List.getElem?_take, if_pos (by omega : j < c - 17)]
      · rw [if_neg hj, if_neg hj]

/-- Witness for `lzo_first_byte`: first byte 16 is rejected, and first
byte 19 buffers the two literal bytes `[0x41, 0x42]`, which at size 1
appear verbatim at the start of the output `[0x41]`. -/
theorem lzo_first_byte_wit :
    decodeFirstByte [16] = .error .invalidFirstInstruction ∧
    ([0x41] : List Nat).take (min 2 1) = ([0x41, 0x42, 0x11, 0, 0] : List Nat).take (min 2 1) := by
  constructor
  · exact ((lzo_first_byte 16 []).1 (by decide) (by decide)).1
  · obtain ⟨st, hfb, hbuf, hpre⟩ :=
      (lzo_first_byte 19 [0x41, 0x42, 0x11, 0, 0]).2 (by decide) (by decide)
    exact hpre 1 [0x41] (by decide)

end Astrolabe
